import Mathlib

/-!
Verification of `treeverse/golang-lru`, file `src/simplelru/lru.go`: a
cost-bounded, non-thread-safe LRU cache.  The Go store keeps a doubly linked
`evictList` (front = most recently used, back = least recently used), a map
`items` from key to list element, a running cost `evictListCost` and a ceiling
`maxCost`.  We embed the store as a single Lean structure whose `evictList`
field is the front-to-back list of entries; the `items` map is in 1:1
correspondence with the list in every state the Go code can build, so key
lookup is embedded as a first-match search of the list.  Go `int64` / `int`
are embedded as `Int` / `Nat`, in two variants: the exact operations
(`Add`, `Remove`, ...) compute the accumulator with unbounded integers, and
the wrap-faithful operations (`Add64`, `Remove64`, ...) apply Go's
two's-complement `int64` wraparound (`wrap64`) at the two accumulator
updates (`evictListCost += cost` in `Add`, `evictListCost -= kv.cost` in
`removeElement`).  The two variants are proved to coincide on every
well-formed store whose ceilings stay at or below `2^62 - 1`, the exact
region in which no accumulator update can reach the `2^63` boundary; the
capacity invariant is refuted at ceiling `2^62` through the wrap-faithful
model and proved below it.  Panics
(`Add` of a new oversized entry, `Resize` with a non-positive ceiling) are
embedded as an explicit `OpResult.panicked` constructor carrying the store
state at the moment of the panic, and the eviction loop's (unreachable)
failure to terminate as `OpResult.diverged`.  The optional `onEvict`
callback is embedded as an event log: each operation returns the list of
`(key, value, cost)` triples it would pass to the callback, in call order.
-/

set_option linter.unusedSectionVars false
set_option linter.unusedVariables false

namespace SimpleLRU

/-- Entry mirrors Go `entry`: one resident key/value pair with its cost. -/
structure Entry (K V : Type) where
  key : K
  value : V
  cost : Int
deriving DecidableEq

/-- LRU mirrors Go `LRU`: the `evictList` runs front (most recently used)
to back (least recently used); `evictListCost` is the running cost sum kept
by the Go code; the `items` map is implicit (first-match search of the
list).  The `onEvict` callback is replaced by event logs on operations. -/
structure LRU (K V : Type) where
  maxCost : Int
  evictList : List (Entry K V)
  evictListCost : Int
deriving DecidableEq

/-- Event passed to the eviction notifier: `(key, value, cost)`. -/
abbrev Ev (K V : Type) := K × V × Int

/-- Result of an operation that may panic: `ok` carries the evicted count,
the new store, and the notifier events in call order; `panicked` carries the
store state at the moment the Go code panics; `diverged` marks the eviction
loop running forever (Go's `for` loop with an empty list). -/
inductive OpResult (K V : Type) where
  | ok (evicted : Nat) (st : LRU K V) (events : List (Ev K V))
  | panicked (st : LRU K V)
  | diverged
deriving DecidableEq

variable {K V : Type} [DecidableEq K]

/-- Sum of the costs of a list of entries. -/
def sumCosts (l : List (Entry K V)) : Int :=
  (l.map (fun e => e.cost)).sum

/-- The notifier event for one entry. -/
def toEv (e : Entry K V) : Ev K V :=
  (e.key, e.value, e.cost)

/-- Go `NewLRU`: rejects a non-positive ceiling with an error (embedded as
`none`), otherwise returns the empty store. -/
def NewLRU (maxCost : Int) : Option (LRU K V) :=
  if maxCost ≤ 0 then none
  else some { maxCost := maxCost, evictList := [], evictListCost := 0 }

/-- The key-match predicate used for every `items[key]` lookup. -/
def keyIs (k : K) : Entry K V → Bool :=
  fun e => decide (e.key = k)

/-- Go's eviction loop `for c.evictListCost > c.maxCost { evicted++;
c.removeOldest() }`, shared by `Add` and `Resize`.  Each iteration removes
the back of the list (`removeElement` on `Back()`: drop the last entry,
subtract its cost, fire the notifier).  The loop removes one entry per
iteration, so `fuel := c.evictList.length` is exactly enough; if the list
empties while the cost still exceeds the ceiling the Go loop never
terminates, which the fuel-0 / empty-list branches report as `none`.
Returns the final store, the number of iterations, and the notifier events
in eviction order (oldest first). -/
def evictGo : Nat → LRU K V → Option (LRU K V × Nat × List (Ev K V))
  | 0, c => if c.maxCost < c.evictListCost then none else some (c, 0, [])
  | fuel + 1, c =>
    if c.maxCost < c.evictListCost then
      match c.evictList.getLast? with
      | none => none
      | some e =>
        match evictGo fuel { c with evictList := c.evictList.dropLast,
                                    evictListCost := c.evictListCost - e.cost } with
        | none => none
        | some (c', n, evs) => some (c', n + 1, toEv e :: evs)
    else some (c, 0, [])

/-- Go `Add`.  An existing key is moved to the front of the list with its
value replaced and its cost kept (`cost can't be updated`), returning 0
evictions; a new key first panics if `cost > c.maxCost`, otherwise is
pushed at the front, the accumulator grows by `cost`, and the eviction
loop runs. -/
def Add (c : LRU K V) (k : K) (v : V) (cost : Int) : OpResult K V :=
  match c.evictList.find? (keyIs k) with
  | some e =>
    OpResult.ok 0
      { c with evictList :=
          { key := e.key, value := v, cost := e.cost } ::
            c.evictList.eraseP (keyIs k) } []
  | none =>
    if c.maxCost < cost then OpResult.panicked c
    else
      let c1 : LRU K V :=
        { c with evictList := { key := k, value := v, cost := cost } :: c.evictList,
                 evictListCost := c.evictListCost + cost }
      match evictGo c1.evictList.length c1 with
      | none => OpResult.diverged
      | some (c', n, evs) => OpResult.ok n c' evs

/-- Go `Get`: on a hit, move the entry to the front and return its value.
(The source's `ent.Value.(*entry) == nil` test is dead code: `Add` only
ever stores non-nil `*entry` pointers, so it is not represented.) -/
def Get (c : LRU K V) (k : K) : Option V × LRU K V :=
  match c.evictList.find? (keyIs k) with
  | some e =>
    (some e.value, { c with evictList := e :: c.evictList.eraseP (keyIs k) })
  | none => (none, c)

/-- Go `Contains`: map membership only. -/
def Contains (c : LRU K V) (k : K) : Bool :=
  (c.evictList.find? (keyIs k)).isSome

/-- Go `Peek`: the same lookup as `Get` but without the move-to-front; the
returned store is the input store. -/
def Peek (c : LRU K V) (k : K) : Option V × LRU K V :=
  match c.evictList.find? (keyIs k) with
  | some e => (some e.value, c)
  | none => (none, c)

/-- Go `Remove`: `removeElement` on the looked-up element (remove it from
the list, subtract its cost, fire the notifier); returns whether the key
was present. -/
def Remove (c : LRU K V) (k : K) : Bool × LRU K V × List (Ev K V) :=
  match c.evictList.find? (keyIs k) with
  | some e =>
    (true,
     { c with evictList := c.evictList.eraseP (keyIs k),
              evictListCost := c.evictListCost - e.cost },
     [toEv e])
  | none => (false, c, [])

/-- Go `RemoveOldest`: `removeElement` on `Back()` (drop the last entry,
subtract its cost, fire the notifier), returning its key and value. -/
def RemoveOldest (c : LRU K V) : Option (K × V) × LRU K V × List (Ev K V) :=
  match c.evictList.getLast? with
  | some e =>
    (some (e.key, e.value),
     { c with evictList := c.evictList.dropLast,
              evictListCost := c.evictListCost - e.cost },
     [toEv e])
  | none => (none, c, [])

/-- Go `GetOldest`: read `Back()` without removing, reordering, or firing
the notifier (its event log is empty by construction, matching the source,
and the returned store is the input store). -/
def GetOldest (c : LRU K V) : Option (K × V) × LRU K V :=
  match c.evictList.getLast? with
  | some e => (some (e.key, e.value), c)
  | none => (none, c)

/-- Go `Keys`: iterates the list from `Back()` to the front, so the keys
come out oldest to newest. -/
def Keys (c : LRU K V) : List K :=
  c.evictList.reverse.map (fun e => e.key)

/-- Go `Len`: the list length. -/
def Len (c : LRU K V) : Nat :=
  c.evictList.length

/-- Go `Cost`: the running accumulator. -/
def Cost (c : LRU K V) : Int :=
  c.evictListCost

/-- Go `Resize`: panics on a non-positive ceiling, otherwise installs the
new ceiling and runs the eviction loop. -/
def Resize (c : LRU K V) (maxCost : Int) : OpResult K V :=
  if maxCost ≤ 0 then OpResult.panicked c
  else
    let c1 : LRU K V := { c with maxCost := maxCost }
    match evictGo c1.evictList.length c1 with
    | none => OpResult.diverged
    | some (c', n, evs) => OpResult.ok n c' evs

/-- Go `Purge`: fires the notifier once per resident entry (the source
iterates the `items` map, so the order is unspecified; the embedding emits
front-to-back list order, one event per entry), then resets the list and
the accumulator. -/
def Purge (c : LRU K V) : LRU K V × List (Ev K V) :=
  ({ c with evictList := [], evictListCost := 0 },
   c.evictList.map toEv)

/-- Runs a sequence of `Add` calls, accumulating the total evicted count;
`none` if any call panics or diverges. -/
def addSeq (c : LRU K V) : List (K × V × Int) → Option (LRU K V × Nat)
  | [] => some (c, 0)
  | (k, v, cost) :: rest =>
    match Add c k v cost with
    | OpResult.ok n c' _ =>
      match addSeq c' rest with
      | some (c'', m) => some (c'', n + m)
      | none => none
    | _ => none

/-- One public operation of the store, for reachability. -/
inductive Op (K V : Type) where
  | add (k : K) (v : V) (cost : Int)
  | get (k : K)
  | contains (k : K)
  | peek (k : K)
  | remove (k : K)
  | removeOldest
  | getOldest
  | keys
  | len
  | cost
  | resize (m : Int)
  | purge

/-- The cost constraint of claim C1: `Add` calls supply non-negative
costs; no constraint on the other operations. -/
def Op.okCost : Op K V → Prop
  | Op.add _ _ cst => 0 ≤ cst
  | _ => True

/-- The store state after one public operation, or `none` when the
operation does not return normally (panic or divergence). -/
def applyOp (c : LRU K V) : Op K V → Option (LRU K V)
  | Op.add k v cst =>
    match Add c k v cst with
    | OpResult.ok _ c' _ => some c'
    | _ => none
  | Op.get k => some (Get c k).2
  | Op.contains _ => some c
  | Op.peek k => some (Peek c k).2
  | Op.remove k => some (Remove c k).2.1
  | Op.removeOldest => some (RemoveOldest c).2.1
  | Op.getOldest => some (GetOldest c).2
  | Op.keys => some c
  | Op.len => some c
  | Op.cost => some c
  | Op.resize m =>
    match Resize c m with
    | OpResult.ok _ c' _ => some c'
    | _ => none
  | Op.purge => some (Purge c).1

/-- Stores reachable from `NewLRU` by public operations that return
normally, where every `Add` supplies a non-negative cost. -/
inductive Reachable : LRU K V → Prop where
  | new (m : Int) (c : LRU K V) : NewLRU m = some c → Reachable c
  | step (c c' : LRU K V) (op : Op K V) :
      Reachable c → op.okCost → applyOp c op = some c' → Reachable c'

/-- The inductive invariant of a reachable store: positive ceiling, the
accumulator equals the recomputed cost sum, entry costs are non-negative,
and the capacity invariant holds. -/
def Wf (c : LRU K V) : Prop :=
  0 < c.maxCost ∧
  c.evictListCost = sumCosts c.evictList ∧
  (∀ e ∈ c.evictList, 0 ≤ e.cost) ∧
  c.evictListCost ≤ c.maxCost

/-- Go `int64` two's-complement wraparound: reduce an exact integer into
`[-2^63, 2^63)`, as Go's `+=` and `-=` on the accumulator do at the
`2^63` boundary. -/
def wrap64 (n : Int) : Int :=
  (n + 2 ^ 63) % 2 ^ 64 - 2 ^ 63

/-- The eviction loop with Go's wrapping `int64` subtraction in
`removeElement` (`c.evictListCost -= kv.cost`); otherwise identical to
`evictGo`. -/
def evictGo64 : Nat → LRU K V → Option (LRU K V × Nat × List (Ev K V))
  | 0, c => if c.maxCost < c.evictListCost then none else some (c, 0, [])
  | fuel + 1, c =>
    if c.maxCost < c.evictListCost then
      match c.evictList.getLast? with
      | none => none
      | some e =>
        match evictGo64 fuel { c with evictList := c.evictList.dropLast,
                                      evictListCost :=
                                        wrap64 (c.evictListCost - e.cost) } with
        | none => none
        | some (c', n, evs) => some (c', n + 1, toEv e :: evs)
    else some (c, 0, [])

/-- Go `Add` with the wrapping `int64` accumulator update
`c.evictListCost += cost`; otherwise identical to `Add`. -/
def Add64 (c : LRU K V) (k : K) (v : V) (cost : Int) : OpResult K V :=
  match c.evictList.find? (keyIs k) with
  | some e =>
    OpResult.ok 0
      { c with evictList :=
          { key := e.key, value := v, cost := e.cost } ::
            c.evictList.eraseP (keyIs k) } []
  | none =>
    if c.maxCost < cost then OpResult.panicked c
    else
      let c1 : LRU K V :=
        { c with evictList := { key := k, value := v, cost := cost } :: c.evictList,
                 evictListCost := wrap64 (c.evictListCost + cost) }
      match evictGo64 c1.evictList.length c1 with
      | none => OpResult.diverged
      | some (c', n, evs) => OpResult.ok n c' evs

/-- Go `Remove` with the wrapping `int64` subtraction in
`removeElement`; otherwise identical to `Remove`. -/
def Remove64 (c : LRU K V) (k : K) : Bool × LRU K V × List (Ev K V) :=
  match c.evictList.find? (keyIs k) with
  | some e =>
    (true,
     { c with evictList := c.evictList.eraseP (keyIs k),
              evictListCost := wrap64 (c.evictListCost - e.cost) },
     [toEv e])
  | none => (false, c, [])

/-- Go `RemoveOldest` with the wrapping `int64` subtraction in
`removeElement`; otherwise identical to `RemoveOldest`. -/
def RemoveOldest64 (c : LRU K V) : Option (K × V) × LRU K V × List (Ev K V) :=
  match c.evictList.getLast? with
  | some e =>
    (some (e.key, e.value),
     { c with evictList := c.evictList.dropLast,
              evictListCost := wrap64 (c.evictListCost - e.cost) },
     [toEv e])
  | none => (none, c, [])

/-- Go `Resize` with the wrapping eviction loop; otherwise identical to
`Resize`. -/
def Resize64 (c : LRU K V) (maxCost : Int) : OpResult K V :=
  if maxCost ≤ 0 then OpResult.panicked c
  else
    let c1 : LRU K V := { c with maxCost := maxCost }
    match evictGo64 c1.evictList.length c1 with
    | none => OpResult.diverged
    | some (c', n, evs) => OpResult.ok n c' evs

/-- The store state after one public operation under wrapping `int64`
accumulator arithmetic, or `none` when the operation does not return
normally.  The operations that never touch the accumulator (`Get`,
`Peek`, `Contains`, `GetOldest`, `Keys`, `Len`, `Cost`) and `Purge`
(which resets it to 0) are shared with the exact model. -/
def applyOp64 (c : LRU K V) : Op K V → Option (LRU K V)
  | Op.add k v cst =>
    match Add64 c k v cst with
    | OpResult.ok _ c' _ => some c'
    | _ => none
  | Op.get k => some (Get c k).2
  | Op.contains _ => some c
  | Op.peek k => some (Peek c k).2
  | Op.remove k => some (Remove64 c k).2.1
  | Op.removeOldest => some (RemoveOldest64 c).2.1
  | Op.getOldest => some (GetOldest c).2
  | Op.keys => some c
  | Op.len => some c
  | Op.cost => some c
  | Op.resize m =>
    match Resize64 c m with
    | OpResult.ok _ c' _ => some c'
    | _ => none
  | Op.purge => some (Purge c).1

/-- Stores reachable from `NewLRU` by public operations that return
normally under wrapping `int64` arithmetic, where every `Add` supplies a
non-negative cost — exactly the scope of the capacity-invariant claim,
over the wrap-faithful model. -/
inductive Reachable64 : LRU K V → Prop where
  | new (m : Int) (c : LRU K V) : NewLRU m = some c → Reachable64 c
  | step (c c' : LRU K V) (op : Op K V) :
      Reachable64 c → op.okCost → applyOp64 c op = some c' → Reachable64 c'

/-- The strengthened per-operation constraint of the amended capacity
invariant: `Add` costs are non-negative and `Resize` ceilings stay at or
below `2^62 - 1` (so that no accumulator update can reach the `int64`
boundary). -/
def Op.okCost64 : Op K V → Prop
  | Op.add _ _ cst => 0 ≤ cst
  | Op.resize m => m ≤ 2 ^ 62 - 1
  | _ => True

/-- Stores reachable under wrapping `int64` arithmetic when every ceiling
ever installed (at construction and by `Resize`) is at most `2^62 - 1`
and every `Add` cost is non-negative. -/
inductive Reachable64B : LRU K V → Prop where
  | new (m : Int) (c : LRU K V) :
      NewLRU m = some c → m ≤ 2 ^ 62 - 1 → Reachable64B c
  | step (c c' : LRU K V) (op : Op K V) :
      Reachable64B c → op.okCost64 → applyOp64 c op = some c' → Reachable64B c'

/-- The invariant of the amended capacity claim: well-formed with a
ceiling small enough that accumulator arithmetic can never wrap. -/
def Wf64 (c : LRU K V) : Prop :=
  Wf c ∧ c.maxCost ≤ 2 ^ 62 - 1

@[simp]
theorem sumCosts_nil : sumCosts ([] : List (Entry K V)) = 0 := rfl

@[simp]
theorem sumCosts_cons (e : Entry K V) (l : List (Entry K V)) :
    sumCosts (e :: l) = e.cost + sumCosts l := by
  simp [sumCosts]

@[simp]
theorem sumCosts_append (l₁ l₂ : List (Entry K V)) :
    sumCosts (l₁ ++ l₂) = sumCosts l₁ + sumCosts l₂ := by
  simp [sumCosts]

/-- A successful first-match search splits the list, up to permutation,
into the found element and the list with that occurrence erased. -/
theorem perm_cons_eraseP {α : Type} (p : α → Bool) :
    ∀ (l : List α) (e : α), l.find? p = some e → l.Perm (e :: l.eraseP p)
  | [], e, h => by simp [List.find?] at h
  | x :: xs, e, h => by
    by_cases hpx : p x
    · rw [List.find?_cons_of_pos _ hpx] at h
      cases h
      rw [List.eraseP_cons_of_pos hpx]
    · rw [List.find?_cons_of_neg _ hpx] at h
      rw [List.eraseP_cons_of_neg hpx]
      exact ((perm_cons_eraseP p xs e h).cons x).trans (List.Perm.swap e x _)

theorem sumCosts_of_perm {l₁ l₂ : List (Entry K V)} (h : l₁.Perm l₂) :
    sumCosts l₁ = sumCosts l₂ := by
  simpa [sumCosts] using (h.map (fun e => e.cost)).sum_eq

/-- When the accumulator is already within the ceiling, the eviction loop
does nothing. -/
theorem evictGo_of_le (fuel : Nat) (c : LRU K V)
    (h : c.evictListCost ≤ c.maxCost) :
    evictGo fuel c = some (c, 0, []) := by
  cases fuel <;> simp [evictGo, Int.not_lt.mpr h]

/-- Characterization of the eviction loop on a state whose accumulator
matches the recomputed sum: it terminates, splitting the list into a
front part that is kept and a back part that is dropped back-to-front,
with the accumulator resummed, the notifier fired once per dropped entry
in eviction order, and the count of iterations returned; the kept part is
within the ceiling, and before each individual eviction the ceiling was
still exceeded. -/
theorem evictGo_sound (fuel : Nat) (c : LRU K V)
    (hmax : 0 < c.maxCost)
    (hsum : c.evictListCost = sumCosts c.evictList)
    (hfuel : c.evictList.length ≤ fuel) :
    ∃ kept dropped : List (Entry K V),
      c.evictList = kept ++ dropped ∧
      evictGo fuel c =
        some ({ c with evictList := kept, evictListCost := sumCosts kept },
          dropped.length, dropped.reverse.map toEv) ∧
      sumCosts kept ≤ c.maxCost ∧
      (∀ j < dropped.length, c.maxCost < sumCosts (kept ++ dropped.take (j + 1))) := by
  induction fuel generalizing c with
  | zero =>
    have hnil : c.evictList = [] := List.length_eq_zero.mp (Nat.le_zero.mp hfuel)
    obtain ⟨mx, l, cst⟩ := c
    dsimp only at hnil hsum hmax ⊢
    subst hnil
    rw [sumCosts_nil] at hsum
    subst hsum
    refine ⟨[], [], by simp, ?_, by simpa using hmax.le, by simp⟩
    simp [evictGo, Int.not_lt.mpr hmax.le]
  | succ fuel ih =>
    by_cases hlt : c.maxCost < c.evictListCost
    · have hne : c.evictList ≠ [] := by
        intro hnil
        rw [hsum, hnil, sumCosts_nil] at hlt
        omega
      obtain ⟨e, hlast⟩ := Option.isSome_iff_exists.mp (List.getLast?_isSome.mpr hne)
      obtain ⟨ys, hys⟩ := List.getLast?_eq_some_iff.mp hlast
      obtain ⟨kept, dropped2, hsplit, heq2, hle2, hmin2⟩ :=
        ih { c with evictList := ys, evictListCost := c.evictListCost - e.cost }
          hmax
          (by
            show c.evictListCost - e.cost = sumCosts ys
            rw [hsum, hys, sumCosts_append, sumCosts_cons, sumCosts_nil]
            omega)
          (by
            show ys.length ≤ fuel
            have hlen : c.evictList.length = ys.length + 1 := by rw [hys]; simp
            omega)
      dsimp only at hsplit heq2 hle2 hmin2
      refine ⟨kept, dropped2 ++ [e], ?_, ?_, hle2, ?_⟩
      · rw [hys, hsplit, List.append_assoc]
      · simp only [evictGo, if_pos hlt, hys, List.getLast?_concat, List.dropLast_concat]
        rw [heq2]
        simp [List.reverse_append]
      · intro j hj
        simp only [List.length_append, List.length_cons, List.length_nil] at hj
        rcases Nat.lt_succ_iff_lt_or_eq.mp (by omega : j < dropped2.length + 1) with hj2 | hj2
        · rw [List.take_append_of_le_length (by omega)]
          exact hmin2 j hj2
        · subst hj2
          rw [List.take_of_length_le (by simp)]
          have hsame : sumCosts (kept ++ (dropped2 ++ [e])) = c.evictListCost := by
            rw [← List.append_assoc, ← hsplit, ← hys]
            exact hsum.symm
          omega
    · obtain ⟨mx, l, cst⟩ := c
      dsimp only at hsum hlt hmax ⊢
      subst hsum
      refine ⟨l, [], by simp, ?_, Int.not_lt.mp hlt, by simp⟩
      rw [evictGo_of_le _ _ (Int.not_lt.mp hlt)]
      rfl

/-- Unfolding of `Add` on a present key. -/
theorem Add_hit (c : LRU K V) (k : K) (v : V) (cost : Int) (e : Entry K V)
    (hfind : c.evictList.find? (keyIs k) = some e) :
    Add c k v cost = OpResult.ok 0
      { c with evictList := { key := e.key, value := v, cost := e.cost } ::
          c.evictList.eraseP (keyIs k) } [] := by
  simp [Add, hfind]

/-- Unfolding of `Add` on a new key whose cost exceeds the ceiling: the
panic happens before any mutation, so the carried state is `c` itself. -/
theorem Add_panic (c : LRU K V) (k : K) (v : V) (cost : Int)
    (hfind : c.evictList.find? (keyIs k) = none) (hbig : c.maxCost < cost) :
    Add c k v cost = OpResult.panicked c := by
  simp [Add, hfind, hbig]

/-- Unfolding of `Add` on an admissible new key over a well-formed store:
the new entry goes to the front and the eviction loop drops a back
segment of the resulting list. -/
theorem Add_new (c : LRU K V) (k : K) (v : V) (cost : Int)
    (hw : Wf c) (hfind : c.evictList.find? (keyIs k) = none)
    (hbig : ¬ c.maxCost < cost) :
    ∃ kept dropped : List (Entry K V),
      ({ key := k, value := v, cost := cost } : Entry K V) :: c.evictList =
        kept ++ dropped ∧
      Add c k v cost = OpResult.ok dropped.length
        { c with evictList := kept, evictListCost := sumCosts kept }
        (dropped.reverse.map toEv) ∧
      sumCosts kept ≤ c.maxCost ∧
      (∀ j < dropped.length, c.maxCost < sumCosts (kept ++ dropped.take (j + 1))) := by
  obtain ⟨kept, dropped, hsplit, hgo, hle, hmin⟩ :=
    evictGo_sound
      (({ key := k, value := v, cost := cost } : Entry K V) :: c.evictList).length
      { c with evictList := { key := k, value := v, cost := cost } :: c.evictList,
               evictListCost := c.evictListCost + cost }
      hw.1
      (by
        show c.evictListCost + cost =
          sumCosts ({ key := k, value := v, cost := cost } :: c.evictList)
        rw [sumCosts_cons, hw.2.1]
        ring)
      (le_refl _)
  dsimp only at hsplit hgo hle hmin
  refine ⟨kept, dropped, hsplit, ?_, hle, hmin⟩
  simp only [Add, hfind, if_neg hbig]
  rw [hgo]

/-- The move-to-front-with-value-replacement path preserves the
invariant. -/
theorem wf_hit (c : LRU K V) (k : K) (e : Entry K V) (v : V)
    (hw : Wf c) (hfind : c.evictList.find? (keyIs k) = some e) :
    Wf { c with evictList :=
      { key := e.key, value := v, cost := e.cost } :: c.evictList.eraseP (keyIs k) } := by
  obtain ⟨h1, h2, h3, h4⟩ := hw
  have hperm := perm_cons_eraseP (keyIs k) c.evictList e hfind
  have hsumeq : sumCosts c.evictList =
      e.cost + sumCosts (c.evictList.eraseP (keyIs k)) := by
    simpa using sumCosts_of_perm hperm
  refine ⟨h1, ?_, ?_, h4⟩
  · show c.evictListCost = sumCosts ({ key := e.key, value := v, cost := e.cost } ::
      c.evictList.eraseP (keyIs k))
    rw [sumCosts_cons, h2, hsumeq]
  · intro x hx
    rcases List.mem_cons.mp hx with hx | hx
    · subst hx
      exact h3 e (List.mem_of_find?_eq_some hfind)
    · exact h3 x ((List.eraseP_sublist _).subset hx)

/-- `Add` with a non-negative cost preserves the invariant when it
returns normally. -/
theorem wf_add (c c' : LRU K V) (k : K) (v : V) (cost : Int)
    (n : Nat) (evs : List (Ev K V))
    (hw : Wf c) (hc0 : 0 ≤ cost) (h : Add c k v cost = OpResult.ok n c' evs) :
    Wf c' := by
  cases hfind : c.evictList.find? (keyIs k) with
  | some e =>
    rw [Add_hit c k v cost e hfind] at h
    cases h
    exact wf_hit c k e v hw hfind
  | none =>
    by_cases hbig : c.maxCost < cost
    · rw [Add_panic c k v cost hfind hbig] at h
      cases h
    · obtain ⟨kept, dropped, hsplit, heq, hle, _⟩ := Add_new c k v cost hw hfind hbig
      rw [heq] at h
      cases h
      refine ⟨hw.1, rfl, ?_, hle⟩
      intro x hx
      have hx2 : x ∈ ({ key := k, value := v, cost := cost } : Entry K V) ::
          c.evictList := by
        rw [hsplit]
        exact List.mem_append_left _ hx
      rcases List.mem_cons.mp hx2 with hx2 | hx2
      · subst hx2
        exact hc0
      · exact hw.2.2.1 x hx2

/-- `Resize` preserves the invariant when it returns normally. -/
theorem wf_resize (c c' : LRU K V) (m : Int) (n : Nat) (evs : List (Ev K V))
    (hw : Wf c) (h : Resize c m = OpResult.ok n c' evs) : Wf c' := by
  by_cases hm : m ≤ 0
  · simp [Resize, hm] at h
  · obtain ⟨kept, dropped, hsplit, hgo, hle, hmin⟩ :=
      evictGo_sound c.evictList.length { c with maxCost := m }
        (by simpa using Int.not_le.mp hm)
        (by simpa using hw.2.1)
        (le_refl _)
    dsimp only at hsplit hgo hle hmin
    simp only [Resize, if_neg hm] at h
    rw [hgo] at h
    cases h
    refine ⟨by simpa using Int.not_le.mp hm, rfl, ?_, hle⟩
    intro x hx
    exact hw.2.2.1 x (by rw [hsplit]; exact List.mem_append_left _ hx)

/-- Every public operation that returns normally, with non-negative `Add`
costs, preserves the invariant. -/
theorem wf_applyOp (c c' : LRU K V) (op : Op K V)
    (hw : Wf c) (hok : op.okCost) (h : applyOp c op = some c') : Wf c' := by
  obtain ⟨h1, h2, h3, h4⟩ := hw
  cases op with
  | add k v cst =>
    simp only [applyOp] at h
    cases hadd : Add c k v cst with
    | ok n st evs =>
      rw [hadd] at h
      cases h
      exact wf_add c _ k v cst n evs ⟨h1, h2, h3, h4⟩ hok hadd
    | panicked st => rw [hadd] at h; cases h
    | diverged => rw [hadd] at h; cases h
  | get k =>
    simp only [applyOp] at h
    cases hfind : c.evictList.find? (keyIs k) with
    | some e =>
      simp only [Get, hfind] at h
      cases h
      have := wf_hit c k e e.value ⟨h1, h2, h3, h4⟩ hfind
      simpa using this
    | none =>
      simp only [Get, hfind] at h
      cases h
      exact ⟨h1, h2, h3, h4⟩
  | contains k => cases h; exact ⟨h1, h2, h3, h4⟩
  | peek k =>
    simp only [applyOp] at h
    cases hfind : c.evictList.find? (keyIs k) with
    | some e => simp only [Peek, hfind] at h; cases h; exact ⟨h1, h2, h3, h4⟩
    | none => simp only [Peek, hfind] at h; cases h; exact ⟨h1, h2, h3, h4⟩
  | remove k =>
    simp only [applyOp] at h
    cases hfind : c.evictList.find? (keyIs k) with
    | some e =>
      simp only [Remove, hfind] at h
      cases h
      have hperm := perm_cons_eraseP (keyIs k) c.evictList e hfind
      have hsumeq : sumCosts c.evictList =
          e.cost + sumCosts (c.evictList.eraseP (keyIs k)) := by
        simpa using sumCosts_of_perm hperm
      have hec : 0 ≤ e.cost := h3 e (List.mem_of_find?_eq_some hfind)
      refine ⟨h1, ?_, ?_, ?_⟩
      · show c.evictListCost - e.cost = sumCosts (c.evictList.eraseP (keyIs k))
        omega
      · intro x hx
        exact h3 x ((List.eraseP_sublist _).subset hx)
      · show c.evictListCost - e.cost ≤ c.maxCost
        omega
    | none =>
      simp only [Remove, hfind] at h
      cases h
      exact ⟨h1, h2, h3, h4⟩
  | removeOldest =>
    simp only [applyOp] at h
    cases hlast : c.evictList.getLast? with
    | some e =>
      simp only [RemoveOldest, hlast] at h
      cases h
      obtain ⟨ys, hys⟩ := List.getLast?_eq_some_iff.mp hlast
      have hsumeq : sumCosts c.evictList = sumCosts ys + e.cost := by
        rw [hys]; simp
      have hec : 0 ≤ e.cost := h3 e (List.mem_of_getLast?_eq_some hlast)
      refine ⟨h1, ?_, ?_, ?_⟩
      · show c.evictListCost - e.cost = sumCosts c.evictList.dropLast
        rw [hys, List.dropLast_concat]
        omega
      · intro x hx
        exact h3 x ((List.dropLast_sublist _).subset hx)
      · show c.evictListCost - e.cost ≤ c.maxCost
        omega
    | none =>
      simp only [RemoveOldest, hlast] at h
      cases h
      exact ⟨h1, h2, h3, h4⟩
  | getOldest =>
    simp only [applyOp] at h
    cases hlast : c.evictList.getLast? with
    | some e => simp only [GetOldest, hlast] at h; cases h; exact ⟨h1, h2, h3, h4⟩
    | none => simp only [GetOldest, hlast] at h; cases h; exact ⟨h1, h2, h3, h4⟩
  | keys => cases h; exact ⟨h1, h2, h3, h4⟩
  | len => cases h; exact ⟨h1, h2, h3, h4⟩
  | cost => cases h; exact ⟨h1, h2, h3, h4⟩
  | resize m =>
    simp only [applyOp] at h
    cases hres : Resize c m with
    | ok n st evs =>
      rw [hres] at h
      cases h
      exact wf_resize c _ m n evs ⟨h1, h2, h3, h4⟩ hres
    | panicked st => rw [hres] at h; cases h
    | diverged => rw [hres] at h; cases h
  | purge =>
    simp only [applyOp, Purge] at h
    cases h
    exact ⟨h1, rfl, by simp, h1.le⟩

/-- Every reachable store satisfies the invariant. -/
theorem reachable_wf (c : LRU K V) (h : Reachable c) : Wf c := by
  induction h with
  | new m c hnew =>
    by_cases hm : m ≤ 0
    · simp [NewLRU, hm] at hnew
    · simp only [NewLRU, if_neg hm] at hnew
      cases hnew
      exact ⟨by simpa using Int.not_le.mp hm, rfl, by simp, by simpa using (Int.not_le.mp hm).le⟩
  | step c c' op hr hok happ ih => exact wf_applyOp c c' op ih hok happ

/-- The capacity invariant of the exact (non-wrapping) model: every
store reachable with non-negative `Add` costs satisfies
`Cost() <= maxCost` when the accumulator is computed with unbounded
integers.  (Over Go's wrapping `int64` this fails — see the C1
counterexample and amended theorem below.) -/
theorem capacity_invariant_exact (c : LRU K V) (h : Reachable c) :
    Cost c ≤ c.maxCost :=
  (reachable_wf c h).2.2.2

/-- A concrete one-entry store used by the C1 witness: reachable by
`NewLRU 10` followed by `Add 1 2` with cost 3. -/
def oneEntryStore : LRU Nat Nat :=
  { maxCost := 10, evictList := [{ key := 1, value := 2, cost := 3 }],
    evictListCost := 3 }

/-- Claim C2: `Add` of a resident key moves the entry to the front of the
recency order, replaces its stored value, keeps the entry's cost and the
total cost unchanged regardless of the supplied cost, evicts nothing, and
returns 0. -/
theorem claim2_re_add_existing (c : LRU K V) (k : K) (v : V) (cst : Int)
    (e : Entry K V) (hfind : c.evictList.find? (keyIs k) = some e) :
    ∃ c', Add c k v cst = OpResult.ok 0 c' [] ∧
      c'.evictList.head? = some { key := k, value := v, cost := e.cost } ∧
      c'.evictList.tail = c.evictList.eraseP (keyIs k) ∧
      Cost c' = Cost c ∧
      Len c' = Len c := by
  have hek : e.key = k := by
    simpa [keyIs] using List.find?_some hfind
  refine ⟨_, Add_hit c k v cst e hfind, ?_, rfl, rfl, ?_⟩
  · simp [hek]
  · show (({ key := e.key, value := v, cost := e.cost } : Entry K V) ::
      c.evictList.eraseP (keyIs k)).length = c.evictList.length
    rw [List.length_cons,
      List.length_eraseP_of_mem (List.mem_of_find?_eq_some hfind) (List.find?_some hfind)]
    have hpos : c.evictList.length ≠ 0 := by
      intro h0
      rw [List.length_eq_zero.mp h0] at hfind
      simp [List.find?] at hfind
    omega

/-- A concrete store holding key 1 with value 5 and cost 4, used by the
C2 and C9 witnesses. -/
def key1Store : LRU Nat Nat :=
  { maxCost := 10, evictList := [{ key := 1, value := 5, cost := 4 }],
    evictListCost := 4 }

/-- Witness for C2: re-adding key 1 (resident with cost 4) with value 7
and cost 9 keeps cost 4 and total 4, evicting nothing. -/
theorem claim2_witness :
    ∃ c', Add key1Store 1 7 9 = OpResult.ok 0 c' [] ∧
      c'.evictList.head? = some { key := 1, value := 7, cost := 4 } ∧
      c'.evictList.tail = key1Store.evictList.eraseP (keyIs 1) ∧
      Cost c' = Cost key1Store ∧
      Len c' = Len key1Store :=
  claim2_re_add_existing _ 1 7 9 { key := 1, value := 5, cost := 4 } (by decide)

/-- Claim C3: `Add` of a new key with `cost > maxCost` fails fatally
(panic, not an error return); the panic fires before any mutation, so the
state carried out of the failing call is the original store and the key
was never inserted. -/
theorem claim3_oversized_rejection (c : LRU K V) (k : K) (v : V) (cst : Int)
    (hfind : c.evictList.find? (keyIs k) = none) (hbig : c.maxCost < cst) :
    Add c k v cst = OpResult.panicked c ∧ Contains c k = false := by
  refine ⟨Add_panic c k v cst hfind hbig, ?_⟩
  simp [Contains, hfind]

/-- An empty store with ceiling 5, used by the C3 witness. -/
def emptyStore5 : LRU Nat Nat :=
  { maxCost := 5, evictList := [], evictListCost := 0 }

/-- Witness for C3: adding new key 1 with cost 6 to an empty store with
ceiling 5 panics with the store unchanged. -/
theorem claim3_witness :
    Add emptyStore5 1 1 6 = OpResult.panicked emptyStore5 ∧
    Contains emptyStore5 1 = false :=
  claim3_oversized_rejection _ 1 1 6 (by decide) (by decide)

/-- Claim C9 (implicit): `Add` on an already-resident key never panics,
even when the supplied cost exceeds `maxCost`, because the existing-key
branch returns before the oversize check; the call succeeds, replaces the
value, and returns 0. -/
theorem claim9_re_add_oversized_ok (c : LRU K V) (k : K) (v : V) (cst : Int)
    (e : Entry K V) (hfind : c.evictList.find? (keyIs k) = some e)
    (hbig : c.maxCost < cst) :
    ∃ c', Add c k v cst = OpResult.ok 0 c' [] ∧ Cost c' = Cost c ∧
      (Peek c' k).1 = some v := by
  have hek : e.key = k := by
    simpa [keyIs] using List.find?_some hfind
  refine ⟨_, Add_hit c k v cst e hfind, rfl, ?_⟩
  show (Peek { c with evictList := { key := e.key, value := v, cost := e.cost } ::
      c.evictList.eraseP (keyIs k) } k).1 = some v
  simp [Peek, keyIs, List.find?_cons, hek]

/-- Witness for C9: re-adding resident key 1 with cost 99 on a store with
ceiling 10 succeeds (no panic) and replaces the value. -/
theorem claim9_witness :
    ∃ c', Add key1Store 1 7 99 = OpResult.ok 0 c' [] ∧
      Cost c' = Cost key1Store ∧
      (Peek c' 1).1 = some 7 :=
  claim9_re_add_oversized_ok _ 1 7 99 { key := 1, value := 5, cost := 4 }
    (by decide) (by decide)

/-- Claim C10 (implicit): on a non-empty store `GetOldest` returns
exactly the key and value that an immediately following `RemoveOldest`
removes and returns, and `GetOldest` changes no state (and, by its type,
fires no notifier event); on an empty store both return not-found and
change nothing. -/
theorem claim10_oldest_agreement (c : LRU K V) :
    (GetOldest c).2 = c ∧
    (c.evictList = [] →
      (GetOldest c).1 = none ∧ (RemoveOldest c).1 = none ∧
      (RemoveOldest c).2.1 = c ∧ (RemoveOldest c).2.2 = []) ∧
    (c.evictList ≠ [] →
      ∃ e : Entry K V, c.evictList.getLast? = some e ∧
        (GetOldest c).1 = some (e.key, e.value) ∧
        (RemoveOldest c).1 = some (e.key, e.value) ∧
        (RemoveOldest c).2.1.evictList = c.evictList.dropLast ∧
        Cost (RemoveOldest c).2.1 = Cost c - e.cost ∧
        (RemoveOldest c).2.2 = [toEv e]) := by
  refine ⟨?_, ?_, ?_⟩
  · cases hlast : c.evictList.getLast? <;> simp [GetOldest, hlast]
  · intro hnil
    have hlast : c.evictList.getLast? = none := by simp [hnil]
    simp [GetOldest, RemoveOldest, hlast]
  · intro hne
    obtain ⟨e, hlast⟩ := Option.isSome_iff_exists.mp (List.getLast?_isSome.mpr hne)
    exact ⟨e, hlast, by simp [GetOldest, hlast], by simp [RemoveOldest, hlast],
      by simp [RemoveOldest, hlast], by simp [RemoveOldest, hlast, Cost],
      by simp [RemoveOldest, hlast]⟩

/-- A concrete two-entry store (key 1 in front, key 2 at the back), used
by the C10 witness. -/
def twoEntryStore : LRU Nat Nat :=
  { maxCost := 10,
    evictList := [{ key := 1, value := 5, cost := 4 },
                  { key := 2, value := 6, cost := 3 }],
    evictListCost := 7 }

/-- Witness for C10 on a two-entry store: the oldest entry is the back
entry, key 2. -/
theorem claim10_witness :
    ∃ e : Entry Nat Nat,
      twoEntryStore.evictList.getLast? = some e ∧
      (GetOldest twoEntryStore).1 = some (e.key, e.value) ∧
      (RemoveOldest twoEntryStore).1 = some (e.key, e.value) ∧
      (RemoveOldest twoEntryStore).2.1.evictList = twoEntryStore.evictList.dropLast ∧
      Cost (RemoveOldest twoEntryStore).2.1 = Cost twoEntryStore - e.cost ∧
      (RemoveOldest twoEntryStore).2.2 = [toEv e] :=
  (claim10_oldest_agreement _).2.2 (by decide)

/-- Helper for C4: adding a batch of fresh, distinct keys whose total
cost fits under the ceiling never evicts and stacks the new entries in
front, newest first. -/
theorem addSeq_no_evict (xs : List (K × V × Int)) :
    ∀ c : LRU K V,
      (∀ x ∈ xs, 0 ≤ x.2.2) →
      (xs.map (fun x => x.1)).Nodup →
      (∀ x ∈ xs, ∀ e ∈ c.evictList, e.key ≠ x.1) →
      c.evictListCost = sumCosts c.evictList →
      0 ≤ c.evictListCost →
      c.evictListCost + (xs.map (fun x => x.2.2)).sum ≤ c.maxCost →
      addSeq c xs = some
        ({ c with
           evictList :=
             (xs.map (fun x => Entry.mk x.1 x.2.1 x.2.2)).reverse ++ c.evictList,
           evictListCost := c.evictListCost + (xs.map (fun x => x.2.2)).sum }, 0) := by
  induction xs with
  | nil =>
    intro c _ _ _ _ _ _
    obtain ⟨mx, l, cst⟩ := c
    simp [addSeq]
  | cons x xs ih =>
    intro c hnn hnd hfresh hsum hpos hle
    obtain ⟨k, v, cst⟩ := x
    simp only [List.map_cons, List.sum_cons] at hle
    simp only [List.map_cons] at hnd
    have hcst0 : (0 : Int) ≤ cst := hnn (k, v, cst) (List.mem_cons_self _ _)
    have hrest : 0 ≤ (xs.map (fun x => x.2.2)).sum := by
      apply List.sum_nonneg
      intro y hy
      obtain ⟨x', hx', rfl⟩ := List.mem_map.mp hy
      exact hnn x' (List.mem_cons_of_mem _ hx')
    have hfind : c.evictList.find? (keyIs k) = none := by
      rw [List.find?_eq_none]
      intro e he
      simpa [keyIs] using hfresh (k, v, cst) (List.mem_cons_self _ _) e he
    have hbig : ¬ c.maxCost < cst := by omega
    have hle1 : c.evictListCost + cst ≤ c.maxCost := by omega
    have hAdd : Add c k v cst = OpResult.ok 0
        { c with evictList := Entry.mk k v cst :: c.evictList,
                 evictListCost := c.evictListCost + cst } [] := by
      simp only [Add, hfind, if_neg hbig]
      rw [evictGo_of_le _ _
        (show ({ c with evictList := Entry.mk k v cst :: c.evictList,
                        evictListCost := c.evictListCost + cst } : LRU K V).evictListCost ≤
          ({ c with evictList := Entry.mk k v cst :: c.evictList,
                    evictListCost := c.evictListCost + cst } : LRU K V).maxCost from hle1)]
    have hih := ih { c with evictList := Entry.mk k v cst :: c.evictList,
                            evictListCost := c.evictListCost + cst }
      (fun x' hx' => hnn x' (List.mem_cons_of_mem _ hx'))
      hnd.of_cons
      (by
        intro x' hx' e he
        rcases List.mem_cons.mp he with he | he
        · subst he
          show k ≠ x'.1
          intro hkx
          exact (List.nodup_cons.mp hnd).1
            (hkx ▸ List.mem_map_of_mem (fun y => y.1) hx')
        · exact hfresh x' (List.mem_cons_of_mem _ hx') e he)
      (by
        show c.evictListCost + cst = sumCosts (Entry.mk k v cst :: c.evictList)
        rw [sumCosts_cons, hsum]
        dsimp only
        omega)
      (by show (0 : Int) ≤ c.evictListCost + cst; omega)
      (by
        show c.evictListCost + cst + (xs.map (fun x => x.2.2)).sum ≤ c.maxCost
        omega)
    simp only [addSeq, hAdd, hih]
    simp [List.reverse_cons, List.append_assoc, Int.add_assoc]

/-- Claim C4: `Keys` returns exactly the resident keys ordered oldest to
newest (back-to-front of the recency list); in particular, adding
distinct keys in order to a fresh store, with no intervening reads and
total cost within the ceiling (so no evictions occur), makes `Keys`
return them in insertion order. -/
theorem claim4_keys_ordering (m : Int) (c0 : LRU K V) (xs : List (K × V × Int))
    (hnew : NewLRU m = some c0)
    (hnn : ∀ x ∈ xs, 0 ≤ x.2.2)
    (hnd : (xs.map (fun x => x.1)).Nodup)
    (hfit : (xs.map (fun x => x.2.2)).sum ≤ m) :
    (∀ c : LRU K V, Keys c = (c.evictList.map (fun e => e.key)).reverse) ∧
    ∃ cfin, addSeq c0 xs = some (cfin, 0) ∧ Keys cfin = xs.map (fun x => x.1) := by
  constructor
  · intro c
    simp [Keys]
  · by_cases hm : m ≤ 0
    · simp [NewLRU, hm] at hnew
    · simp only [NewLRU, if_neg hm] at hnew
      cases hnew
      refine ⟨_, addSeq_no_evict xs _ hnn hnd (by intro x hx e he; simp at he)
        rfl (le_refl _) (by simpa using hfit), ?_⟩
      simp [Keys, List.map_map]

/-- Witness for C4: two distinct keys with costs 2 and 3 added to a fresh
store with ceiling 10 come back from `Keys` in insertion order. -/
theorem claim4_witness :
    ∃ cfin, addSeq ({ maxCost := 10, evictList := [], evictListCost := 0 } : LRU Nat Nat)
        [(1, 10, 2), (2, 20, 3)] = some (cfin, 0) ∧
      Keys cfin = [1, 2] :=
  (claim4_keys_ordering 10 _ [(1, 10, 2), (2, 20, 3)]
    (by decide) (by decide) (by decide) (by decide)).2

set_option maxRecDepth 4000000

/-- Claim C5: starting from a fresh store with `maxCost = 128`, adding
256 distinct keys one at a time, each with cost 2 and no reads in
between, leaves `Len() = 64` and the `Add` return values sum to 192
evictions. -/
theorem claim5_eviction_count :
    (match NewLRU (K := Nat) (V := Nat) 128 with
     | none => none
     | some c0 =>
       match addSeq c0 ((List.range 256).map (fun i => (i, i, (2 : Int)))) with
       | none => none
       | some (c, n) => some (Len c, n)) = some (64, 192) := by
  decide

/-- Claim C6: `Resize` panics on a non-positive ceiling with the store
unchanged; otherwise it installs the new ceiling and removes back-most
entries one at a time, firing the notifier per eviction in eviction
order, exactly until the cost is within the new ceiling (in particular a
ceiling at or above the current cost evicts nothing), and returns the
number evicted. -/
theorem claim6_resize (c : LRU K V) (m : Int)
    (hsum : c.evictListCost = sumCosts c.evictList) :
    (m ≤ 0 → Resize c m = OpResult.panicked c) ∧
    (0 < m →
      ∃ kept dropped : List (Entry K V),
        c.evictList = kept ++ dropped ∧
        Resize c m = OpResult.ok dropped.length
          { maxCost := m, evictList := kept, evictListCost := sumCosts kept }
          (dropped.reverse.map toEv) ∧
        sumCosts kept ≤ m ∧
        (Cost c ≤ m → dropped = []) ∧
        (∀ j < dropped.length, m < sumCosts (kept ++ dropped.take (j + 1)))) := by
  constructor
  · intro hm
    simp [Resize, hm]
  · intro hm
    obtain ⟨kept, dropped, hsplit, hgo, hle, hmin⟩ :=
      evictGo_sound c.evictList.length { c with maxCost := m }
        (by simpa using hm) (by simpa using hsum) (le_refl _)
    dsimp only at hsplit hgo hle hmin
    refine ⟨kept, dropped, hsplit, ?_, hle, ?_, hmin⟩
    · simp only [Resize, if_neg (by omega : ¬ m ≤ 0)]
      rw [hgo]
    · intro hcost
      have hstop := evictGo_of_le c.evictList.length { c with maxCost := m }
        (show ({ c with maxCost := m } : LRU K V).evictListCost ≤ m from hcost)
      rw [hgo] at hstop
      have hlen : dropped.length = 0 := by
        have h2 := congrArg (fun p => p.2.1) (Option.some.inj hstop)
        simpa using h2
      exact List.eq_nil_of_length_eq_zero hlen

/-- A concrete store holding two entries totalling cost 100 at ceiling
100, used by the C6 witness. -/
def fullStore100 : LRU Nat Nat :=
  { maxCost := 100,
    evictList := [{ key := 1, value := 10, cost := 60 },
                  { key := 2, value := 20, cost := 40 }],
    evictListCost := 100 }

/-- Witness for C6: `Resize 40` on a store of total cost 100 evicts from
the back until the cost fits. -/
theorem claim6_witness :
    ∃ kept dropped : List (Entry Nat Nat),
      fullStore100.evictList = kept ++ dropped ∧
      Resize fullStore100 40 = OpResult.ok dropped.length
        { maxCost := 40, evictList := kept, evictListCost := sumCosts kept }
        (dropped.reverse.map toEv) ∧
      sumCosts kept ≤ 40 ∧
      (Cost fullStore100 ≤ 40 → dropped = []) ∧
      (∀ j < dropped.length, 40 < sumCosts (kept ++ dropped.take (j + 1))) :=
  (claim6_resize fullStore100 40 (by decide)).2 (by decide)

/-- Claim C7: after `Purge()` the store is empty (`Len = 0`, `Cost = 0`,
no key resident) and the notifier fired exactly once per entry resident
at the time of the call, with that entry's key, value and cost (the
source fires them in unspecified map order; the embedding uses list
order, which carries the same once-per-entry multiset). -/
theorem claim7_purge_complete [DecidableEq V] (c : LRU K V)
    (hnd : (c.evictList.map (fun e => e.key)).Nodup) :
    Len (Purge c).1 = 0 ∧ Cost (Purge c).1 = 0 ∧
    (∀ k, Contains (Purge c).1 k = false) ∧
    (Purge c).2.length = Len c ∧
    (∀ e ∈ c.evictList,
      (Purge c).2.countP (fun ev => decide (ev = toEv e)) = 1) := by
  refine ⟨rfl, rfl, ?_, ?_, ?_⟩
  · intro k
    simp [Purge, Contains, List.find?]
  · simp [Purge, Len]
  · intro e he
    have hndev : ((Purge c).2).Nodup := by
      apply List.Nodup.of_map (fun p => p.1)
      show ((c.evictList.map toEv).map (fun p => p.1)).Nodup
      rw [List.map_map]
      exact hnd
    show @List.count (Ev K V) instBEqOfDecidableEq (toEv e) (Purge c).2 = 1
    exact List.count_eq_one_of_mem hndev (List.mem_map_of_mem toEv he)

/-- Witness for C7: purging the two-entry store of the C6 witness fires
one notification per entry and empties the store. -/
theorem claim7_witness :
    Len (Purge fullStore100).1 = 0 ∧ Cost (Purge fullStore100).1 = 0 ∧
    (∀ k, Contains (Purge fullStore100).1 k = false) ∧
    (Purge fullStore100).2.length = Len fullStore100 ∧
    (∀ e ∈ fullStore100.evictList,
      (Purge fullStore100).2.countP (fun ev => decide (ev = toEv e)) = 1) :=
  claim7_purge_complete fullStore100 (by decide)

/-- Claim C8: `Peek` returns the same `(value, found)` answer as `Get`
but leaves the store untouched, and `Contains` agrees with `Peek` on
residency; in particular in the scenario `Add a`, `Add b`, `Peek a`,
`Add c` at exhausted capacity, the eviction removes `a`, not `b`,
because `Peek` did not promote `a`. -/
theorem claim8_peek_contains_frame :
    (∀ (c : LRU K V) (k : K),
      (Peek c k).1 = (Get c k).1 ∧ (Peek c k).2 = c ∧
      Contains c k = ((Peek c k).1).isSome) ∧
    ((match NewLRU (K := Nat) (V := Nat) 2 with
      | none => none
      | some c0 =>
        match Add c0 1 10 1 with
        | OpResult.ok _ c1 _ =>
          match Add c1 2 20 1 with
          | OpResult.ok _ c2 _ =>
            match Add (Peek c2 1).2 3 30 1 with
            | OpResult.ok n c3 evs => some (n, evs, Keys c3)
            | _ => none
          | _ => none
        | _ => none) = some (1, [(1, 10, 1)], [2, 3])) := by
  constructor
  · intro c k
    refine ⟨?_, ?_, ?_⟩ <;>
      cases hfind : c.evictList.find? (keyIs k) <;>
        simp [Peek, Get, Contains, hfind]
  · decide

/-- Wraparound is the identity on values already inside the `int64`
range. -/
theorem wrap64_eq_self (n : Int) (h1 : -(2 ^ 63) ≤ n) (h2 : n < 2 ^ 63) :
    wrap64 n = n := by
  unfold wrap64
  rw [Int.emod_eq_of_lt (by omega) (by omega)]
  omega

/-- A list of entries with non-negative costs has a non-negative sum. -/
theorem sumCosts_nonneg (l : List (Entry K V)) (h : ∀ e ∈ l, 0 ≤ e.cost) :
    0 ≤ sumCosts l := by
  show 0 ≤ (l.map (fun e => e.cost)).sum
  apply List.sum_nonneg
  intro x hx
  obtain ⟨e, he, rfl⟩ := List.mem_map.mp hx
  exact h e he

/-- On a store whose accumulator matches the recomputed sum of
non-negative entry costs and sits below `2^63`, the wrapping eviction
loop coincides with the exact one: every subtraction lands on a partial
sum inside the `int64` range. -/
theorem evictGo64_eq (fuel : Nat) (c : LRU K V)
    (hnn : ∀ e ∈ c.evictList, 0 ≤ e.cost)
    (hsum : c.evictListCost = sumCosts c.evictList)
    (hub : c.evictListCost < 2 ^ 63) :
    evictGo64 fuel c = evictGo fuel c := by
  induction fuel generalizing c with
  | zero => rfl
  | succ fuel ih =>
    by_cases hlt : c.maxCost < c.evictListCost
    · cases hlast : c.evictList.getLast? with
      | none => simp [evictGo64, evictGo, hlt, hlast]
      | some e =>
        obtain ⟨ys, hys⟩ := List.getLast?_eq_some_iff.mp hlast
        have hnny : ∀ x ∈ ys, 0 ≤ x.cost := fun x hx =>
          hnn x (by rw [hys]; exact List.mem_append_left _ hx)
        have hsube : sumCosts c.evictList = sumCosts ys + e.cost := by
          rw [hys]; simp
        have he0 : 0 ≤ e.cost := hnn e (List.mem_of_getLast?_eq_some hlast)
        have hys0 : 0 ≤ sumCosts ys := sumCosts_nonneg ys hnny
        have hwrap : wrap64 (c.evictListCost - e.cost) = c.evictListCost - e.cost :=
          wrap64_eq_self _ (by omega) (by omega)
        have hrec := ih { c with evictList := c.evictList.dropLast,
                                 evictListCost := c.evictListCost - e.cost }
          (by intro x hx
              exact hnn x ((List.dropLast_sublist _).subset hx))
          (by show c.evictListCost - e.cost = sumCosts c.evictList.dropLast
              rw [hsum, hsube, hys, List.dropLast_concat]
              omega)
          (by show c.evictListCost - e.cost < 2 ^ 63
              omega)
        simp only [evictGo64, evictGo, if_pos hlt, hlast, hwrap, hrec]
    · simp [evictGo64, evictGo, hlt]

/-- On a well-formed store whose ceiling is at most `2^62 - 1`, `Add64`
with a non-negative cost coincides with the exact `Add`: the accumulator
update `evictListCost + cost` is at most `2(2^62 - 1) < 2^63`. -/
theorem Add64_eq (c : LRU K V) (k : K) (v : V) (cost : Int)
    (hw : Wf c) (hb : c.maxCost ≤ 2 ^ 62 - 1) (hc0 : 0 ≤ cost) :
    Add64 c k v cost = Add c k v cost := by
  obtain ⟨h1, h2, h3, h4⟩ := hw
  cases hfind : c.evictList.find? (keyIs k) with
  | some e => simp [Add64, Add, hfind]
  | none =>
    by_cases hbig : c.maxCost < cost
    · simp [Add64, Add, hfind, hbig]
    · have hnn0 : 0 ≤ c.evictListCost := h2 ▸ sumCosts_nonneg _ h3
      have hwrap : wrap64 (c.evictListCost + cost) = c.evictListCost + cost :=
        wrap64_eq_self _ (by omega) (by omega)
      have hgo := evictGo64_eq
        (({ key := k, value := v, cost := cost } : Entry K V) :: c.evictList).length
        { c with evictList := { key := k, value := v, cost := cost } :: c.evictList,
                 evictListCost := c.evictListCost + cost }
        (by intro x hx
            rcases List.mem_cons.mp hx with hx | hx
            · subst hx; exact hc0
            · exact h3 x hx)
        (by show c.evictListCost + cost =
              sumCosts ({ key := k, value := v, cost := cost } :: c.evictList)
            rw [sumCosts_cons, h2]
            dsimp only
            omega)
        (by show c.evictListCost + cost < 2 ^ 63
            omega)
      simp only [Add64, Add, hfind, if_neg hbig, hwrap, hgo]

/-- On a well-formed store whose ceiling is at most `2^62 - 1`,
`Remove64` coincides with the exact `Remove`: the subtraction lands on
the non-negative sum of the remaining entries. -/
theorem Remove64_eq (c : LRU K V) (k : K)
    (hw : Wf c) (hb : c.maxCost ≤ 2 ^ 62 - 1) :
    Remove64 c k = Remove c k := by
  obtain ⟨h1, h2, h3, h4⟩ := hw
  cases hfind : c.evictList.find? (keyIs k) with
  | none => simp [Remove64, Remove, hfind]
  | some e =>
    have hperm := perm_cons_eraseP (keyIs k) c.evictList e hfind
    have hsumeq : sumCosts c.evictList =
        e.cost + sumCosts (c.evictList.eraseP (keyIs k)) := by
      simpa using sumCosts_of_perm hperm
    have her0 : 0 ≤ sumCosts (c.evictList.eraseP (keyIs k)) :=
      sumCosts_nonneg _ (fun x hx => h3 x ((List.eraseP_sublist _).subset hx))
    have he0 : 0 ≤ e.cost := h3 e (List.mem_of_find?_eq_some hfind)
    have hwrap : wrap64 (c.evictListCost - e.cost) = c.evictListCost - e.cost :=
      wrap64_eq_self _ (by omega) (by omega)
    simp [Remove64, Remove, hfind, hwrap]

/-- On a well-formed store whose ceiling is at most `2^62 - 1`,
`RemoveOldest64` coincides with the exact `RemoveOldest`. -/
theorem RemoveOldest64_eq (c : LRU K V)
    (hw : Wf c) (hb : c.maxCost ≤ 2 ^ 62 - 1) :
    RemoveOldest64 c = RemoveOldest c := by
  obtain ⟨h1, h2, h3, h4⟩ := hw
  cases hlast : c.evictList.getLast? with
  | none => simp [RemoveOldest64, RemoveOldest, hlast]
  | some e =>
    obtain ⟨ys, hys⟩ := List.getLast?_eq_some_iff.mp hlast
    have hsube : sumCosts c.evictList = sumCosts ys + e.cost := by
      rw [hys]; simp
    have hys0 : 0 ≤ sumCosts ys :=
      sumCosts_nonneg ys (fun x hx =>
        h3 x (by rw [hys]; exact List.mem_append_left _ hx))
    have he0 : 0 ≤ e.cost := h3 e (List.mem_of_getLast?_eq_some hlast)
    have hwrap : wrap64 (c.evictListCost - e.cost) = c.evictListCost - e.cost :=
      wrap64_eq_self _ (by omega) (by omega)
    simp [RemoveOldest64, RemoveOldest, hlast, hwrap]

/-- On a well-formed store whose ceiling is at most `2^62 - 1`,
`Resize64` coincides with the exact `Resize`: the loop only ever
subtracts from an in-range accumulator. -/
theorem Resize64_eq (c : LRU K V) (m : Int)
    (hw : Wf c) (hb : c.maxCost ≤ 2 ^ 62 - 1) :
    Resize64 c m = Resize c m := by
  obtain ⟨h1, h2, h3, h4⟩ := hw
  by_cases hm : m ≤ 0
  · simp [Resize64, Resize, hm]
  · have hgo := evictGo64_eq c.evictList.length { c with maxCost := m }
      (by intro x hx; exact h3 x hx)
      (by simpa using h2)
      (by show c.evictListCost < 2 ^ 63; omega)
    simp only [Resize64, Resize, if_neg hm, hgo]

/-- The eviction loop never changes the ceiling. -/
theorem evictGo_maxCost (fuel : Nat) :
    ∀ (c c' : LRU K V) (n : Nat) (evs : List (Ev K V)),
      evictGo fuel c = some (c', n, evs) → c'.maxCost = c.maxCost := by
  induction fuel with
  | zero =>
    intro c c' n evs h
    by_cases hlt : c.maxCost < c.evictListCost
    · simp [evictGo, hlt] at h
    · simp only [evictGo, if_neg hlt] at h
      obtain ⟨heq, -, -⟩ : c = c' ∧ (0 : Nat) = n ∧ ([] : List (Ev K V)) = evs := by
        simpa using h
      rw [← heq]
  | succ fuel ih =>
    intro c c' n evs h
    by_cases hlt : c.maxCost < c.evictListCost
    · cases hlast : c.evictList.getLast? with
      | none => simp [evictGo, hlt, hlast] at h
      | some e =>
        simp only [evictGo, if_pos hlt, hlast] at h
        cases hrec : evictGo fuel { c with evictList := c.evictList.dropLast,
                                           evictListCost := c.evictListCost - e.cost } with
        | none => rw [hrec] at h; simp at h
        | some r =>
          obtain ⟨c2, n2, evs2⟩ := r
          rw [hrec] at h
          obtain ⟨heq, -, -⟩ : c2 = c' ∧ n2 + 1 = n ∧ toEv e :: evs2 = evs := by
            simpa using h
          have hmx := ih _ _ _ _ hrec
          rw [← heq]
          simpa using hmx
    · simp only [evictGo, if_neg hlt] at h
      obtain ⟨heq, -, -⟩ : c = c' ∧ (0 : Nat) = n ∧ ([] : List (Ev K V)) = evs := by
        simpa using h
      rw [← heq]

/-- A normally returning `Add` never changes the ceiling. -/
theorem Add_ok_maxCost (c c' : LRU K V) (k : K) (v : V) (cst : Int)
    (n : Nat) (evs : List (Ev K V)) (h : Add c k v cst = OpResult.ok n c' evs) :
    c'.maxCost = c.maxCost := by
  cases hfind : c.evictList.find? (keyIs k) with
  | some e =>
    rw [Add_hit c k v cst e hfind] at h
    cases h
    rfl
  | none =>
    by_cases hbig : c.maxCost < cst
    · rw [Add_panic c k v cst hfind hbig] at h
      cases h
    · simp only [Add, hfind, if_neg hbig] at h
      cases hrec : evictGo
          (({ key := k, value := v, cost := cst } : Entry K V) :: c.evictList).length
          { c with evictList := { key := k, value := v, cost := cst } :: c.evictList,
                   evictListCost := c.evictListCost + cst } with
      | none => rw [hrec] at h; simp at h
      | some r =>
        obtain ⟨c2, n2, evs2⟩ := r
        rw [hrec] at h
        obtain ⟨-, heq, -⟩ : n2 = n ∧ c2 = c' ∧ evs2 = evs := by
          simpa using h
        have hmx := evictGo_maxCost _ _ _ _ _ hrec
        rw [← heq]
        simpa using hmx

/-- A normally returning `Resize` installs exactly the requested
ceiling. -/
theorem Resize_ok_maxCost (c c' : LRU K V) (m : Int)
    (n : Nat) (evs : List (Ev K V)) (h : Resize c m = OpResult.ok n c' evs) :
    c'.maxCost = m := by
  by_cases hm : m ≤ 0
  · simp [Resize, hm] at h
  · simp only [Resize, if_neg hm] at h
    cases hrec : evictGo c.evictList.length { c with maxCost := m } with
    | none => rw [hrec] at h; simp at h
    | some r =>
      obtain ⟨c2, n2, evs2⟩ := r
      rw [hrec] at h
      obtain ⟨-, heq, -⟩ : n2 = n ∧ c2 = c' ∧ evs2 = evs := by
        simpa using h
      have hmx := evictGo_maxCost _ _ _ _ _ hrec
      rw [← heq]
      simpa using hmx

/-- The strengthened constraint implies the plain one. -/
theorem okCost_of_okCost64 (op : Op K V) (h : op.okCost64) : op.okCost := by
  cases op <;> trivial

/-- Every public operation that returns normally under wrapping
arithmetic, with non-negative `Add` costs and ceilings at most
`2^62 - 1`, preserves the bounded invariant: on such stores the wrapped
operations coincide with the exact ones, and no operation raises the
ceiling past the bound. -/
theorem wf64_applyOp (c c' : LRU K V) (op : Op K V)
    (hw : Wf64 c) (hok : op.okCost64) (h : applyOp64 c op = some c') :
    Wf64 c' := by
  obtain ⟨hwf, hb⟩ := hw
  have heq : applyOp64 c op = applyOp c op := by
    cases op with
    | add k v cst => simp only [applyOp64, applyOp, Add64_eq c k v cst hwf hb hok]
    | remove k => simp only [applyOp64, applyOp, Remove64_eq c k hwf hb]
    | removeOldest => simp only [applyOp64, applyOp, RemoveOldest64_eq c hwf hb]
    | resize m => simp only [applyOp64, applyOp, Resize64_eq c m hwf hb]
    | get k => rfl
    | contains k => rfl
    | peek k => rfl
    | getOldest => rfl
    | keys => rfl
    | len => rfl
    | cost => rfl
    | purge => rfl
  rw [heq] at h
  refine ⟨wf_applyOp c c' op hwf (okCost_of_okCost64 op hok) h, ?_⟩
  cases op with
  | add k v cst =>
    simp only [applyOp] at h
    cases hadd : Add c k v cst with
    | ok n st evs =>
      rw [hadd] at h
      cases h
      rw [Add_ok_maxCost c _ k v cst n evs hadd]
      exact hb
    | panicked st => rw [hadd] at h; cases h
    | diverged => rw [hadd] at h; cases h
  | resize m =>
    simp only [applyOp] at h
    cases hres : Resize c m with
    | ok n st evs =>
      rw [hres] at h
      cases h
      rw [Resize_ok_maxCost c _ m n evs hres]
      exact hok
    | panicked st => rw [hres] at h; cases h
    | diverged => rw [hres] at h; cases h
  | get k =>
    simp only [applyOp] at h
    cases hfind : c.evictList.find? (keyIs k) with
    | some e => simp only [Get, hfind] at h; cases h; exact hb
    | none => simp only [Get, hfind] at h; cases h; exact hb
  | remove k =>
    simp only [applyOp] at h
    cases hfind : c.evictList.find? (keyIs k) with
    | some e => simp only [Remove, hfind] at h; cases h; exact hb
    | none => simp only [Remove, hfind] at h; cases h; exact hb
  | removeOldest =>
    simp only [applyOp] at h
    cases hlast : c.evictList.getLast? with
    | some e => simp only [RemoveOldest, hlast] at h; cases h; exact hb
    | none => simp only [RemoveOldest, hlast] at h; cases h; exact hb
  | peek k =>
    simp only [applyOp] at h
    cases hfind : c.evictList.find? (keyIs k) with
    | some e => simp only [Peek, hfind] at h; cases h; exact hb
    | none => simp only [Peek, hfind] at h; cases h; exact hb
  | getOldest =>
    simp only [applyOp] at h
    cases hlast : c.evictList.getLast? with
    | some e => simp only [GetOldest, hlast] at h; cases h; exact hb
    | none => simp only [GetOldest, hlast] at h; cases h; exact hb
  | contains k => cases h; exact hb
  | keys => cases h; exact hb
  | len => cases h; exact hb
  | cost => cases h; exact hb
  | purge => simp only [applyOp, Purge] at h; cases h; exact hb

/-- Every store reachable under the bounded-ceiling discipline satisfies
the bounded invariant. -/
theorem reachable64B_wf64 (c : LRU K V) (h : Reachable64B c) : Wf64 c := by
  induction h with
  | new m c hnew hm =>
    by_cases hm0 : m ≤ 0
    · simp [NewLRU, hm0] at hnew
    · simp only [NewLRU, if_neg hm0] at hnew
      cases hnew
      exact ⟨⟨by simpa using Int.not_le.mp hm0, rfl, by simp,
        by simpa using (Int.not_le.mp hm0).le⟩, by simpa using hm⟩
  | step c c' op hr hok happ ih => exact wf64_applyOp c c' op ih hok happ

/-- The intermediate states of the C1 overflow trace: a fresh store with
ceiling `2^62`, then after `Add 1` (cost `2^62`), after `Add 2`
(cost `2^62`, the accumulator wraps to `-2^63`), and after `Add 3`
(cost 1). -/
def oflow0 : LRU Nat Nat :=
  { maxCost := 2 ^ 62, evictList := [], evictListCost := 0 }

/-- State after `Add 1` with cost `2^62`. -/
def oflow1 : LRU Nat Nat :=
  { maxCost := 2 ^ 62,
    evictList := [{ key := 1, value := 0, cost := 2 ^ 62 }],
    evictListCost := 2 ^ 62 }

/-- State after `Add 2` with cost `2^62`: the accumulator has wrapped to
`-2^63`, so the eviction loop never runs. -/
def oflow2 : LRU Nat Nat :=
  { maxCost := 2 ^ 62,
    evictList := [{ key := 2, value := 0, cost := 2 ^ 62 },
                  { key := 1, value := 0, cost := 2 ^ 62 }],
    evictListCost := -(2 ^ 63) }

/-- State after `Add 3` with cost 1. -/
def oflow3 : LRU Nat Nat :=
  { maxCost := 2 ^ 62,
    evictList := [{ key := 3, value := 0, cost := 1 },
                  { key := 2, value := 0, cost := 2 ^ 62 },
                  { key := 1, value := 0, cost := 2 ^ 62 }],
    evictListCost := -(2 ^ 63) + 1 }

/-- Final state of the C1 overflow trace, after `Remove 2`: the
subtraction wraps below the `int64` minimum back to `2^62 + 1`, above
the ceiling `2^62`. -/
def overflowStore : LRU Nat Nat :=
  { maxCost := 2 ^ 62,
    evictList := [{ key := 3, value := 0, cost := 1 },
                  { key := 1, value := 0, cost := 2 ^ 62 }],
    evictListCost := 2 ^ 62 + 1 }

/-- Counterexample for C1: under Go's wrapping `int64` accumulator the
claim is false as stated.  `NewLRU (2^62)`; `Add 1` cost `2^62`; `Add 2`
cost `2^62` (accumulator wraps to `-2^63`, no eviction); `Add 3` cost 1;
`Remove 2` (accumulator wraps below the minimum to `2^62 + 1`).  Every
operation returns normally, every `Add` cost is non-negative, yet the
final store has `Cost() = 2^62 + 1 > maxCost = 2^62`. -/
theorem claim1_counterexample :
    Reachable64 overflowStore ∧ ¬ Cost overflowStore ≤ overflowStore.maxCost := by
  constructor
  · refine Reachable64.step oflow3 overflowStore (Op.remove 2) ?_ True.intro
      (by decide)
    refine Reachable64.step oflow2 oflow3 (Op.add 3 0 1) ?_
      (show (0 : Int) ≤ 1 by decide) (by decide)
    refine Reachable64.step oflow1 oflow2 (Op.add 2 0 (2 ^ 62)) ?_
      (show (0 : Int) ≤ 2 ^ 62 by decide) (by decide)
    refine Reachable64.step oflow0 oflow1 (Op.add 1 0 (2 ^ 62)) ?_
      (show (0 : Int) ≤ 2 ^ 62 by decide) (by decide)
    exact Reachable64.new (2 ^ 62) oflow0 (by decide)
  · decide

/-- Claim C1, amended: for every store constructed with
`0 < maxCost ≤ 2^62 - 1` and every sequence of public operations whose
`Add` calls supply non-negative costs and whose `Resize` calls supply
ceilings at most `2^62 - 1`, after each operation returns normally —
with the accumulator computed in Go's wrapping `int64` arithmetic —
`Cost() <= maxCost`.  (The bound is tight: the counterexample fails at
ceiling `2^62`, the smallest ceiling at which an accumulator update can
reach the `int64` boundary.) -/
theorem claim1_amended (c : LRU K V) (h : Reachable64B c) :
    Cost c ≤ c.maxCost :=
  (reachable64B_wf64 c h).1.2.2.2

/-- Witness for the amended C1 at a concrete reachable store: new store
with ceiling 10, then `Add 1 2` with cost 3 through the wrap-faithful
operations. -/
theorem claim1_amended_witness : Cost oneEntryStore ≤ oneEntryStore.maxCost :=
  claim1_amended _
    (Reachable64B.step { maxCost := 10, evictList := [], evictListCost := 0 }
      oneEntryStore (Op.add 1 2 3)
      (Reachable64B.new 10 _ (by decide) (by decide))
      (show (0 : Int) ≤ 3 by decide) (by decide))

end SimpleLRU
